import Mathlib

/-!
Shallow embedding of the return-computation core of the
portfolio-report application.

Sources embedded:
* `src/services/kpis.py`: `_yearfrac`, `xnpv`, `xirr`,
  `time_weighted_return`.
* `src/app.py` (`api_kpi`): the per-account / consolidated KPI
  aggregation loop.

Modelling conventions:
* A Python `date` is its proleptic-Gregorian ordinal (`date.toordinal()`),
  an integer; `(d1 - d0).days` is then plain integer subtraction.
* Python `float` arithmetic is idealised as real arithmetic (`ℝ`);
  `x ** y` on a positive base is `Real.rpow`.
* The exception behaviour of Python division and `**` (ZeroDivisionError
  on `cf / 0.0`; a complex result for a negative base and non-integral
  exponent, which poisons the later `r <= -0.9999` comparison with a
  TypeError) is modelled by a second, `Except`-valued copy of the same
  functions (`pyPow`, `pyDiv`, `xnpvE`, ...).
-/

namespace PortfolioReport

noncomputable section

/-- Embeds `_yearfrac` (kpis.py line 17): `(d1 - d0).days / 365.2425`. -/
def yearfrac (d0 d1 : ℤ) : ℝ := ((d1 - d0 : ℤ) : ℝ) / 365.2425

/-- The minimum date of a cash-flow list, as computed by
`min(d for d, _ in cfs)` in `xnpv` (kpis.py line 27); junk value `0`
on the empty list (Python would raise there, but `xnpv` only calls it
on a non-empty list). -/
def minDate : List (ℤ × ℝ) → ℤ
  | [] => 0
  | p :: rest => rest.foldl (fun m q => min m q.1) p.1

/-- Embeds `xnpv` (kpis.py lines 22-28): `0.0` on the empty list, else
`sum(cf / ((1 + rate) ** _yearfrac(t0, d)) for d, cf in cfs)` with
`t0 = min(d for d, _ in cfs)`. -/
def xnpv (rate : ℝ) (cashflows : List (ℤ × ℝ)) : ℝ :=
  if cashflows = [] then 0
  else
    let t0 := minDate cashflows
    (cashflows.map (fun p => p.2 / (1 + rate) ^ yearfrac t0 p.1)).sum

/-- Embeds the clamp on kpis.py lines 53-54:
`if r <= -0.9999: r = -0.9998`. -/
def clampNewton (r : ℝ) : ℝ := if r ≤ -0.9999 then -0.9998 else r

/-- Embeds the Newton loop of `xirr` (kpis.py lines 44-54).  The first
component is the result (`some r` on convergence, `none` when the loop
breaks on a flat derivative or exhausts its iterations and control falls
through to bisection).  The second component is a ghost trace recording
the rate at the start of each executed iteration, i.e. every rate at
which the loop evaluates `xnpv` (the finite-difference probe of line 49
is evaluated at that same rate shifted by `+1e-6`). -/
def newtonAux (cfs : List (ℤ × ℝ)) : ℕ → ℝ → Option ℝ × List ℝ
  | 0, _ => (none, [])
  | fuel + 1, r =>
    let f := xnpv r cfs
    if |f| < 1e-8 then (some r, [r])
    else
      let df := (xnpv (r + 1e-6) cfs - f) / 1e-6
      if |df| < 1e-12 then (none, [r])
      else
        let rest := newtonAux cfs fuel (clampNewton (r - f / df))
        (rest.1, r :: rest.2)

/-- Embeds the bisection loop of `xirr` (kpis.py lines 60-69): carries
`lo, hi, flo, fhi`, returns early on `|xnpv mid| < 1e-8`, otherwise
narrows to the half with the sign change and finally returns the last
midpoint. -/
def bisectAux (cfs : List (ℤ × ℝ)) : ℕ → ℝ → ℝ → ℝ → ℝ → ℝ
  | 0, lo, hi, _, _ => (lo + hi) / 2
  | fuel + 1, lo, hi, flo, fhi =>
    let mid := (lo + hi) / 2
    let fm := xnpv mid cfs
    if |fm| < 1e-8 then mid
    else if flo * fm ≤ 0 then bisectAux cfs fuel lo mid flo fm
    else bisectAux cfs fuel mid hi fm fhi

/-- Embeds `xirr` (kpis.py lines 31-69): degenerate-input guard, at most
50 Newton iterations, then the bisection fallback over
`[-0.9999, 10.0]` guarded by the sign-change precondition. -/
def xirr (cfs : List (ℤ × ℝ)) (guess : ℝ := 0.1) : Option ℝ :=
  if cfs = [] ∨ ∀ p ∈ cfs, |p.2| < 1e-12 then none
  else
    match (newtonAux cfs 50 guess).1 with
    | some r => some r
    | none =>
      let lo : ℝ := -0.9999
      let hi : ℝ := 10.0
      let flo := xnpv lo cfs
      let fhi := xnpv hi cfs
      if flo * fhi > 0 then none
      else some (bisectAux cfs 200 lo hi flo fhi)

/-! Characterisation of the `minDate` fold. -/

theorem foldl_min_le_init (rest : List (ℤ × ℝ)) (m : ℤ) :
    rest.foldl (fun m q => min m q.1) m ≤ m := by
  induction rest generalizing m with
  | nil => simp
  | cons q rest ih =>
    simpa using le_trans (ih (min m q.1)) (min_le_left _ _)

theorem foldl_min_le_mem (rest : List (ℤ × ℝ)) (m : ℤ) :
    ∀ q ∈ rest, rest.foldl (fun m q => min m q.1) m ≤ q.1 := by
  induction rest generalizing m with
  | nil => simp
  | cons q rest ih =>
    intro q' hq'
    rcases List.mem_cons.mp hq' with h | h
    · subst h
      simpa using le_trans (foldl_min_le_init rest (min m q'.1)) (min_le_right _ _)
    · exact ih (min m q.1) q' h

theorem foldl_min_mem (rest : List (ℤ × ℝ)) (m : ℤ) :
    rest.foldl (fun m q => min m q.1) m = m ∨
      ∃ q ∈ rest, rest.foldl (fun m q => min m q.1) m = q.1 := by
  induction rest generalizing m with
  | nil => simp
  | cons q rest ih =>
    rcases ih (min m q.1) with h | ⟨q', hq', h⟩
    · rcases min_cases m q.1 with ⟨hmin, _⟩ | ⟨hmin, _⟩
      · left; simpa [hmin] using h
      · right; exact ⟨q, List.mem_cons_self _ _, by simpa [hmin] using h⟩
    · right; exact ⟨q', List.mem_cons_of_mem _ hq', by simpa using h⟩

/-- `minDate` of a non-empty list is one of its dates. -/
theorem minDate_mem {cfs : List (ℤ × ℝ)} (h : cfs ≠ []) :
    ∃ q ∈ cfs, minDate cfs = q.1 := by
  match cfs with
  | [] => exact absurd rfl h
  | p :: rest =>
    rcases foldl_min_mem rest p.1 with h' | ⟨q, hq, h'⟩
    · exact ⟨p, List.mem_cons_self _ _, h'⟩
    · exact ⟨q, List.mem_cons_of_mem _ hq, h'⟩

/-- `minDate` is a lower bound on all dates of the list. -/
theorem minDate_le {cfs : List (ℤ × ℝ)} :
    ∀ q ∈ cfs, minDate cfs ≤ q.1 := by
  match cfs with
  | [] => simp
  | p :: rest =>
    intro q hq
    rcases List.mem_cons.mp hq with h | h
    · subst h; exact foldl_min_le_init rest q.1
    · exact foldl_min_le_mem rest p.1 q h

/-- Lists with the same dates have the same `minDate`. -/
theorem minDate_congr {cfs cfs' : List (ℤ × ℝ)} (h : cfs ≠ []) (h' : cfs' ≠ [])
    (hsub : ∀ q ∈ cfs, ∃ q' ∈ cfs', q.1 = q'.1)
    (hsub' : ∀ q' ∈ cfs', ∃ q ∈ cfs, q'.1 = q.1) :
    minDate cfs = minDate cfs' := by
  obtain ⟨q, hq, heq⟩ := minDate_mem h
  obtain ⟨q', hq', heq'⟩ := minDate_mem h'
  apply le_antisymm
  · obtain ⟨p, hp, hpe⟩ := hsub' q' hq'
    calc minDate cfs ≤ p.1 := minDate_le p hp
    _ = q'.1 := hpe.symm
    _ = minDate cfs' := heq'.symm
  · obtain ⟨p', hp', hpe'⟩ := hsub q hq
    calc minDate cfs' ≤ p'.1 := minDate_le p' hp'
    _ = q.1 := hpe'.symm
    _ = minDate cfs := heq.symm

/-- Evaluation rule for `xnpv` on a non-empty list. -/
theorem xnpv_ne_nil (rate : ℝ) {cfs : List (ℤ × ℝ)} (h : cfs ≠ []) :
    xnpv rate cfs =
      (cfs.map (fun p => p.2 / (1 + rate) ^ yearfrac (minDate cfs) p.1)).sum := by
  unfold xnpv
  rw [if_neg h]

/-! C3: the NPV formula. -/

/-- Modelled from the spec wording of `netPresentValue`:
`Σ amount_i / (1+rate)^(yearsBetween(t0, date_i))` with `t0` the minimum
date in the set, and `0.0` on empty input.  Stated with `List.min?` so
that it can be compared with the implementation's fold. -/
def specNetPresentValue (rate : ℝ) (flows : List (ℤ × ℝ)) : ℝ :=
  match (flows.map Prod.fst).min? with
  | none => 0
  | some t0 => (flows.map (fun p => p.2 / (1 + rate) ^ yearfrac t0 p.1)).sum

theorem minDate_eq_min? {cfs : List (ℤ × ℝ)} (h : cfs ≠ []) :
    (cfs.map Prod.fst).min? = some (minDate cfs) := by
  match cfs with
  | [] => exact absurd rfl h
  | p :: rest =>
    show some ((rest.map Prod.fst).foldl min p.1) = some (minDate (p :: rest))
    rw [List.foldl_map]
    rfl

/-- C3: `xnpv` agrees with the spec formula (sum of discounted amounts
anchored at the minimum date, recomputed each call): it returns `0` on
the empty list, equals `specNetPresentValue`, on non-empty input equals
the discounted sum anchored at a date `t0` that is a member of the list
and a lower bound of all its dates, and is invariant under permutations
of the flow list. -/
theorem xnpv_spec_c3 (rate : ℝ) (cfs : List (ℤ × ℝ)) :
    xnpv rate [] = 0 ∧
    xnpv rate cfs = specNetPresentValue rate cfs ∧
    (cfs ≠ [] → ∃ t0, (∃ q ∈ cfs, t0 = q.1) ∧ (∀ q ∈ cfs, t0 ≤ q.1) ∧
      xnpv rate cfs =
        (cfs.map (fun p => p.2 / (1 + rate) ^ yearfrac t0 p.1)).sum) ∧
    (∀ cfs', cfs.Perm cfs' → xnpv rate cfs = xnpv rate cfs') := by
  refine ⟨by simp [xnpv], ?_, ?_, ?_⟩
  · by_cases h : cfs = []
    · subst h; simp [xnpv, specNetPresentValue]
    · rw [xnpv_ne_nil rate h]
      unfold specNetPresentValue
      rw [minDate_eq_min? h]
  · intro h
    obtain ⟨q, hq, heq⟩ := minDate_mem h
    exact ⟨minDate cfs, ⟨q, hq, heq⟩, fun q' hq' => minDate_le q' hq',
      xnpv_ne_nil rate h⟩
  · intro cfs' hperm
    by_cases h : cfs = []
    · subst h
      rw [List.Perm.eq_nil hperm.symm]
    · have h' : cfs' ≠ [] := by
        intro hc; exact h (List.Perm.eq_nil (hc ▸ hperm))
      have hmin : minDate cfs = minDate cfs' :=
        minDate_congr h h'
          (fun q hq => ⟨q, hperm.mem_iff.mp hq, rfl⟩)
          (fun q hq => ⟨q, hperm.mem_iff.mpr hq, rfl⟩)
      rw [xnpv_ne_nil rate h, xnpv_ne_nil rate h', hmin]
      exact List.Perm.sum_eq (hperm.map _)

/-- Witness for C3: permutation invariance and the empty-list identity
at a concrete input. -/
theorem xnpv_spec_c3_witness :
    xnpv 0 [((1 : ℤ), (2 : ℝ)), (0, 3)] = xnpv 0 [((0 : ℤ), (3 : ℝ)), (1, 2)] ∧
    xnpv 0 [] = 0 :=
  ⟨(xnpv_spec_c3 0 [((1 : ℤ), (2 : ℝ)), (0, 3)]).2.2.2
      [((0 : ℤ), (3 : ℝ)), (1, 2)] (List.Perm.swap _ _ _),
    (xnpv_spec_c3 0 []).1⟩

/-! C1: degenerate inputs. -/

/-- C1: `xirr` returns `none` when the cash-flow list is empty or when
every amount's absolute value is below `1e-12`; in particular
`xirr [] = none` and `xirr [(d, 0)] = none` (see the witness). -/
theorem xirr_degenerate_none (cfs : List (ℤ × ℝ)) (guess : ℝ)
    (h : cfs = [] ∨ ∀ p ∈ cfs, |p.2| < 1e-12) :
    xirr cfs guess = none := by
  unfold xirr
  rw [if_pos h]

/-- Witness for C1: the empty series and a one-flow all-zero series both
yield `none`. -/
theorem xirr_degenerate_none_witness :
    xirr [] 0.1 = none ∧ xirr [((737425 : ℤ), (0 : ℝ))] 0.1 = none := by
  constructor
  · exact xirr_degenerate_none [] 0.1 (Or.inl rfl)
  · refine xirr_degenerate_none _ 0.1 (Or.inr ?_)
    intro p hp
    rw [List.mem_singleton] at hp
    subst hp
    norm_num

/-! Evaluation helpers for small concrete flow lists. -/

theorem yearfrac_self (d : ℤ) : yearfrac d d = 0 := by
  simp [yearfrac]

theorem xnpv_single (r : ℝ) (d : ℤ) (a : ℝ) : xnpv r [(d, a)] = a := by
  rw [xnpv_ne_nil r (by simp)]
  simp [minDate, yearfrac_self]

theorem minDate_pair (d1 d2 : ℤ) (a1 a2 : ℝ) :
    minDate [(d1, a1), (d2, a2)] = min d1 d2 := rfl

theorem xnpv_pair (r : ℝ) (d1 d2 : ℤ) (a1 a2 : ℝ) :
    xnpv r [(d1, a1), (d2, a2)] =
      a1 / (1 + r) ^ yearfrac (min d1 d2) d1 +
        a2 / (1 + r) ^ yearfrac (min d1 d2) d2 := by
  rw [xnpv_ne_nil r (by simp)]
  simp [minDate_pair]

/-! C9: the Newton clamp. -/

theorem clampNewton_gt (y : ℝ) : -0.9999 < clampNewton y := by
  unfold clampNewton
  split
  · norm_num
  · linarith [not_le.mp (by assumption : ¬y ≤ -0.9999)]

theorem newtonAux_trace_gt (cfs : List (ℤ × ℝ)) :
    ∀ (fuel : ℕ) (r : ℝ), -0.9999 < r →
      ∀ x ∈ (newtonAux cfs fuel r).2, -0.9999 < x := by
  intro fuel
  induction fuel with
  | zero =>
    intro r hr x hx
    simp [newtonAux] at hx
  | succ n ih =>
    intro r hr x hx
    simp only [newtonAux] at hx
    split_ifs at hx
    · rw [List.mem_singleton.mp hx]; exact hr
    · rw [List.mem_singleton.mp hx]; exact hr
    · rcases List.mem_cons.mp hx with h | h
      · rw [h]; exact hr
      · exact ih (clampNewton _) (clampNewton_gt _) x h

/-- C9: during Newton iteration the rate is clamped away from `-1`:
an update landing at or below `-0.9999` is reset to `-0.9998`
(= `-0.9999 + ε`), the clamp's output is always strictly above
`-0.9999`, and consequently every rate at which the loop evaluates the
NPV after the first iteration (the tail of the ghost trace; the
finite-difference probe sits `1e-6` above it) stays strictly above
`-0.9999`, in particular strictly above `-1`. -/
theorem newton_clamp_c9 :
    (∀ y : ℝ, y ≤ -0.9999 → clampNewton y = -0.9998) ∧
    (∀ y : ℝ, -0.9999 < clampNewton y) ∧
    (∀ (cfs : List (ℤ × ℝ)) (fuel : ℕ) (guess : ℝ),
      ∀ x ∈ ((newtonAux cfs fuel guess).2).tail, -0.9999 < x ∧ -1 < x) := by
  refine ⟨fun y hy => by rw [clampNewton, if_pos hy], clampNewton_gt, ?_⟩
  intro cfs fuel guess x hx
  suffices h : -0.9999 < x by exact ⟨h, by linarith⟩
  cases fuel with
  | zero => simp [newtonAux] at hx
  | succ n =>
    simp only [newtonAux] at hx
    split_ifs at hx
    · simp at hx
    · simp at hx
    · exact newtonAux_trace_gt cfs n (clampNewton _) (clampNewton_gt _) x
        (by simpa using hx)

/-- Witness for C9: the clamp at the concrete over-shooting update
`-2`. -/
theorem newton_clamp_c9_witness :
    clampNewton (-2) = -0.9998 ∧ -0.9999 < clampNewton (-2) :=
  ⟨newton_clamp_c9.1 (-2) (by norm_num), newton_clamp_c9.2.1 (-2)⟩

/-! General soundness facts about the Newton phase. -/

/-- If the Newton loop converges it returns a rate strictly above `-1`
at which the NPV magnitude is below the `1e-8` tolerance. -/
theorem newtonAux_some_sound (cfs : List (ℤ × ℝ)) :
    ∀ (fuel : ℕ) (r r' : ℝ), -1 < r →
      (newtonAux cfs fuel r).1 = some r' →
      -1 < r' ∧ |xnpv r' cfs| < 1e-8 := by
  intro fuel
  induction fuel with
  | zero =>
    intro r r' hr h
    simp [newtonAux] at h
  | succ n ih =>
    intro r r' hr h
    simp only [newtonAux] at h
    split_ifs at h with h1 h2
    · obtain rfl : r = r' := by simpa using h
      exact ⟨hr, h1⟩
    · exact ih (clampNewton _) r' (by linarith [clampNewton_gt (r - xnpv r cfs /
        ((xnpv (r + 1e-6) cfs - xnpv r cfs) / 1e-6))]) h

/-- If no rate above `-1` brings the NPV magnitude below the tolerance,
the Newton loop cannot converge. -/
theorem newtonAux_none (cfs : List (ℤ × ℝ))
    (hno : ∀ s : ℝ, -1 < s → ¬|xnpv s cfs| < 1e-8) :
    ∀ (fuel : ℕ) (r : ℝ), -1 < r → (newtonAux cfs fuel r).1 = none := by
  intro fuel
  induction fuel with
  | zero => intro r hr; rw [newtonAux]
  | succ n ih =>
    intro r hr
    simp only [newtonAux]
    split_ifs with h1 h2
    · exact absurd h1 (hno r hr)
    · rfl
    · exact ih (clampNewton _) (by linarith [clampNewton_gt (r - xnpv r cfs /
        ((xnpv (r + 1e-6) cfs - xnpv r cfs) / 1e-6))])

/-! C4: bracket failure returns `none`. -/

/-- The NPV of the all-positive pair `[(d1, 100), (d2, 50)]` exceeds
`50` at every rate above `-1`: the flow at the minimum date is
undiscounted and the other term is positive. -/
theorem xnpv_pos_pair_gt (d1 d2 : ℤ) (r : ℝ) (hr : -1 < r) :
    50 < xnpv r [(d1, (100 : ℝ)), (d2, 50)] := by
  have hbase : (0 : ℝ) < 1 + r := by linarith
  rw [xnpv_pair]
  rcases min_cases d1 d2 with ⟨hmin, hle⟩ | ⟨hmin, hle⟩
  · rw [hmin, yearfrac_self, Real.rpow_zero, div_one]
    have : (0 : ℝ) < 50 / (1 + r) ^ yearfrac d1 d2 :=
      div_pos (by norm_num) (Real.rpow_pos_of_pos hbase _)
    linarith
  · rw [hmin, yearfrac_self, Real.rpow_zero, div_one]
    have : (0 : ℝ) < 100 / (1 + r) ^ yearfrac d2 d1 :=
      div_pos (by norm_num) (Real.rpow_pos_of_pos hbase _)
    linarith

/-- C4: when the series is not degenerate and Newton does not converge,
a failed sign-change precondition (`xnpv lo * xnpv hi > 0` at the
bracket ends `-0.9999` and `10.0`) makes `xirr` return `none`; in
particular the all-positive series `[(d1, 100), (d2, 50)]` returns
`none` for any dates `d1`, `d2`. -/
theorem xirr_bracket_c4 :
    (∀ (cfs : List (ℤ × ℝ)) (guess : ℝ),
      ¬(cfs = [] ∨ ∀ p ∈ cfs, |p.2| < 1e-12) →
      (newtonAux cfs 50 guess).1 = none →
      xnpv (-0.9999) cfs * xnpv 10.0 cfs > 0 →
      xirr cfs guess = none) ∧
    (∀ d1 d2 : ℤ, xirr [(d1, (100 : ℝ)), (d2, 50)] 0.1 = none) := by
  constructor
  · intro cfs guess hdeg hnewton hpos
    unfold xirr
    rw [if_neg hdeg, hnewton]
    simp only []
    rw [if_pos hpos]
  · intro d1 d2
    have hno : ∀ s : ℝ, -1 < s → ¬|xnpv s [(d1, (100 : ℝ)), (d2, 50)]| < 1e-8 := by
      intro s hs habs
      have h50 := xnpv_pos_pair_gt d1 d2 s hs
      have := le_abs_self (xnpv s [(d1, (100 : ℝ)), (d2, 50)])
      linarith
    have hdeg : ¬([(d1, (100 : ℝ)), (d2, 50)] = [] ∨
        ∀ p ∈ [(d1, (100 : ℝ)), (d2, 50)], |p.2| < 1e-12) := by
      rintro (h | h)
      · exact List.cons_ne_nil _ _ h
      · have := h (d1, (100 : ℝ)) (List.mem_cons_self _ _)
        norm_num at this
    have hnewton := newtonAux_none _ hno 50 0.1 (by norm_num)
    unfold xirr
    rw [if_neg hdeg, hnewton]
    simp only []
    have hlo := xnpv_pos_pair_gt d1 d2 (-0.9999) (by norm_num)
    have hhi := xnpv_pos_pair_gt d1 d2 10.0 (by norm_num)
    rw [if_pos (by positivity)]

/-- Witness for C4: the concrete all-positive series at dates `0` and
`366` yields `none`. -/
theorem xirr_bracket_c4_witness :
    xirr [((0 : ℤ), (100 : ℝ)), (366, 50)] 0.1 = none :=
  xirr_bracket_c4.2 0 366

/-! Embedding of `time_weighted_return` (kpis.py lines 91-117). -/

/-- Stable insertion into a date-sorted list (equal dates keep their
original relative order, matching Python's stable `sorted` with a date
key). -/
def orderedInsert (x : ℤ × ℝ) : List (ℤ × ℝ) → List (ℤ × ℝ)
  | [] => [x]
  | y :: ys => if x.1 ≤ y.1 then x :: y :: ys else y :: orderedInsert x ys

/-- Stable sort by date, modelling `sorted(l, key=lambda x: x[0])`. -/
def sortByDate : List (ℤ × ℝ) → List (ℤ × ℝ)
  | [] => []
  | x :: xs => orderedInsert x (sortByDate xs)

/-- The sub-period flow sum of kpis.py line 111:
`sum(a for d, a in flows if v0_date < d <= v1_date)`. -/
def subSum (flows : List (ℤ × ℝ)) (a b : ℤ) : ℝ :=
  ((flows.filter fun f => decide (a < f.1 ∧ f.1 ≤ b)).map Prod.snd).sum

/-- The walk over consecutive valuation points of kpis.py lines
108-117, compounding sub-period growth factors; returns the compounded
factor minus one, or `none` on a zero-valued sub-period start. -/
def twrWalk (flows : List (ℤ × ℝ)) : ℝ → (ℤ × ℝ) → List (ℤ × ℝ) → Option ℝ
  | acc, _, [] => some (acc - 1)
  | acc, v0, v1 :: rest =>
    let f := subSum flows v0.1 v1.1
    if v0.2 = 0 then none
    else twrWalk flows (acc * ((v1.2 - f) / v0.2)) v1 rest

/-- Embeds `time_weighted_return` (kpis.py lines 91-117).  The
`sortByDate points = []` case is unreachable (the guard requires at
least two points). -/
def time_weighted_return (points flows : List (ℤ × ℝ)) : Option ℝ :=
  if points.length < 2 then none
  else
    match sortByDate points with
    | [] => none
    | p0 :: rest => twrWalk (sortByDate flows) 1 p0 rest

theorem orderedInsert_perm (x : ℤ × ℝ) (l : List (ℤ × ℝ)) :
    (orderedInsert x l).Perm (x :: l) := by
  induction l with
  | nil => exact List.Perm.refl _
  | cons y ys ih =>
    unfold orderedInsert
    split
    · exact List.Perm.refl _
    · exact (ih.cons y).trans (List.Perm.swap x y ys)

theorem sortByDate_perm (l : List (ℤ × ℝ)) : (sortByDate l).Perm l := by
  induction l with
  | nil => exact List.Perm.refl _
  | cons x xs ih =>
    exact (orderedInsert_perm x (sortByDate xs)).trans (ih.cons x)

theorem subSum_perm {l l' : List (ℤ × ℝ)} (h : l.Perm l') (a b : ℤ) :
    subSum l a b = subSum l' a b :=
  List.Perm.sum_eq ((h.filter _).map _)

theorem subSum_cons (d : ℤ) (amt : ℝ) (l : List (ℤ × ℝ)) (a b : ℤ) :
    subSum ((d, amt) :: l) a b =
      (if a < d ∧ d ≤ b then amt else 0) + subSum l a b := by
  by_cases hc : a < d ∧ d ≤ b
  · simp [subSum, hc]
  · simp [subSum, hc]

/-- The walk only inspects the flow list through sub-period sums whose
endpoints are dates of the remaining valuation points. -/
theorem twrWalk_congr (fs1 fs2 : List (ℤ × ℝ)) :
    ∀ (rest : List (ℤ × ℝ)) (acc : ℝ) (v0 : ℤ × ℝ),
      (∀ x ∈ v0 :: rest, ∀ y ∈ v0 :: rest,
        subSum fs1 x.1 y.1 = subSum fs2 x.1 y.1) →
      twrWalk fs1 acc v0 rest = twrWalk fs2 acc v0 rest := by
  intro rest
  induction rest with
  | nil => intro acc v0 _; rfl
  | cons v1 rest ih =>
    intro acc v0 H
    simp only [twrWalk]
    rw [H v0 (List.mem_cons_self _ _) v1
      (List.mem_cons_of_mem _ (List.mem_cons_self _ _))]
    split
    · rfl
    · exact ih _ v1 fun x hx y hy =>
        H x (List.mem_cons_of_mem _ hx) y (List.mem_cons_of_mem _ hy)

/-! C8: sub-period boundary behaviour. -/

/-- C8: a sub-period `(a, b]` sums exactly the flows with
`a < flow_date ≤ b`: a flow dated at the sub-period start `a`
contributes nothing, a flow dated at the sub-period end `b` is
included; concretely, on the points `[(d0, 100), (d1, 110)]` a `+10`
flow at `d0` is not counted (the TWR is `110/100 - 1 = 0.1`) while a
`+10` flow at `d1` is counted (the TWR is `(110-10)/100 - 1 = 0`). -/
theorem twr_boundary_c8 :
    (∀ (flows : List (ℤ × ℝ)) (a b : ℤ) (x : ℝ),
      subSum ((a, x) :: flows) a b = subSum flows a b) ∧
    (∀ (flows : List (ℤ × ℝ)) (a b : ℤ) (x : ℝ), a < b →
      subSum ((b, x) :: flows) a b = x + subSum flows a b) ∧
    (∀ d0 d1 : ℤ, d0 < d1 →
      time_weighted_return [(d0, 100), (d1, 110)] [(d0, 10)] = some 0.1 ∧
      time_weighted_return [(d0, 100), (d1, 110)] [(d1, 10)] = some 0) := by
  refine ⟨?_, ?_, ?_⟩
  · intro flows a b x
    rw [subSum_cons, if_neg (fun hc => lt_irrefl a hc.1), zero_add]
  · intro flows a b x hab
    rw [subSum_cons, if_pos ⟨hab, le_refl b⟩]
  · intro d0 d1 h
    have hsortp : sortByDate [(d0, (100 : ℝ)), (d1, 110)] =
        [(d0, (100 : ℝ)), (d1, 110)] := by
      simp [sortByDate, orderedInsert, le_of_lt h]
    constructor
    · rw [time_weighted_return, if_neg (by norm_num), hsortp]
      have hf : subSum (sortByDate [(d0, (10 : ℝ))]) d0 d1 = 0 := by
        simp [sortByDate, orderedInsert, subSum]
      simp only [twrWalk, hf]
      rw [if_neg (by norm_num)]
      norm_num
    · rw [time_weighted_return, if_neg (by norm_num), hsortp]
      have hf : subSum (sortByDate [(d1, (10 : ℝ))]) d0 d1 = 10 := by
        simp [sortByDate, orderedInsert, subSum, h, le_refl]
      simp only [twrWalk, hf]
      rw [if_neg (by norm_num)]
      norm_num

/-- Witness for C8 at the concrete dates `0 < 1`. -/
theorem twr_boundary_c8_witness :
    subSum [((0 : ℤ), (7 : ℝ))] 0 1 = subSum [] 0 1 ∧
    time_weighted_return [((0 : ℤ), (100 : ℝ)), (1, 110)] [(0, 10)] = some 0.1 ∧
    time_weighted_return [((0 : ℤ), (100 : ℝ)), (1, 110)] [(1, 10)] = some 0 :=
  ⟨twr_boundary_c8.1 [] 0 1 7,
    (twr_boundary_c8.2.2 0 1 (by norm_num)).1,
    (twr_boundary_c8.2.2 0 1 (by norm_num)).2⟩

/-! C10: out-of-window flows are irrelevant. -/

/-- C10: a flow dated on or before every valuation date, or strictly
after every valuation date, does not affect `time_weighted_return`:
appending it to the flow list leaves the result unchanged. -/
theorem twr_out_of_window_c10 (points flows : List (ℤ × ℝ)) (d : ℤ) (amt : ℝ)
    (h : (∀ p ∈ points, d ≤ p.1) ∨ (∀ p ∈ points, p.1 < d)) :
    time_weighted_return points (flows ++ [(d, amt)]) =
      time_weighted_return points flows := by
  unfold time_weighted_return
  by_cases hl : points.length < 2
  · rw [if_pos hl, if_pos hl]
  · rw [if_neg hl, if_neg hl]
    cases hsp : sortByDate points with
    | nil => rfl
    | cons p0 rest =>
      apply twrWalk_congr
      intro x hx y hy
      have hxp : x ∈ points := by
        have : x ∈ sortByDate points := hsp ▸ hx
        exact (sortByDate_perm points).mem_iff.mp this
      have hyp : y ∈ points := by
        have : y ∈ sortByDate points := hsp ▸ hy
        exact (sortByDate_perm points).mem_iff.mp this
      have step1 : subSum (sortByDate (flows ++ [(d, amt)])) x.1 y.1 =
          subSum ((d, amt) :: flows) x.1 y.1 :=
        subSum_perm ((sortByDate_perm _).trans (List.perm_append_singleton _ _)) _ _
      have step2 : subSum (sortByDate flows) x.1 y.1 = subSum flows x.1 y.1 :=
        subSum_perm (sortByDate_perm _) _ _
      rw [step1, step2, subSum_cons, if_neg, zero_add]
      rcases h with h | h
      · exact fun hc => absurd (h x hxp) (not_le.mpr hc.1)
      · exact fun hc => absurd (h y hyp) (not_lt.mpr hc.2)

/-- Witness for C10: adding a flow dated at the first valuation point
leaves the concrete TWR unchanged. -/
theorem twr_out_of_window_c10_witness :
    time_weighted_return [((0 : ℤ), (100 : ℝ)), (1, 110)] ([] ++ [(0, 10)]) =
      time_weighted_return [((0 : ℤ), (100 : ℝ)), (1, 110)] [] :=
  twr_out_of_window_c10 [((0 : ℤ), (100 : ℝ)), (1, 110)] [] 0 10
    (Or.inl (by
      intro p hp
      rcases List.mem_cons.mp hp with h | h
      · subst h
        norm_num
      · rw [List.mem_singleton.mp h]
        norm_num))

/-! Embedding of the KPI aggregation loop of `api_kpi`
(src/app.py lines 164-183). -/

/-- One account as seen by `api_kpi`: its external cash flows and its
latest valuation `(date, value)` (one row of `latest_valuations`). -/
structure AccountData where
  flows : List (ℤ × ℝ)
  valDate : ℤ
  valValue : ℝ

/-- The mutable loop state of `api_kpi`:
`all_flows, total_terminal, max_date` and the per-account `xirr`
results collected into `accounts`. -/
structure KpiState where
  allFlows : List (ℤ × ℝ)
  totalTerminal : ℝ
  maxDate : Option ℤ
  accountXirrs : List (Option ℝ)

/-- One iteration of the `for account_id, d, v in lv` loop
(app.py lines 172-178): update `max_date`, build
`cf = flows + [(d, v)]`, record `xirr(cf)` for the account, extend
`all_flows` with `cf[:-1]` and add `v` to `total_terminal`. -/
def apiKpiStep (st : KpiState) (a : AccountData) : KpiState :=
  let cf := a.flows ++ [(a.valDate, a.valValue)]
  { allFlows := st.allFlows ++ cf.dropLast
    totalTerminal := st.totalTerminal + a.valValue
    maxDate := match st.maxDate with
      | none => some a.valDate
      | some m => if m < a.valDate then some a.valDate else some m
    accountXirrs := st.accountXirrs ++ [xirr cf] }

/-- Embeds the KPI computation of `api_kpi` (app.py lines 171-183):
the list of per-account XIRRs and the consolidated IRR, which appends
the synthetic terminal flow `(max_date, total_terminal)` to the
accumulated `all_flows` (and is `None` when there was no account). -/
def api_kpi (accounts : List AccountData) : List (Option ℝ) × Option ℝ :=
  let st := accounts.foldl apiKpiStep ⟨[], 0, none, []⟩
  match st.maxDate with
  | none => (st.accountXirrs, none)
  | some m => (st.accountXirrs, xirr (st.allFlows ++ [(m, st.totalTerminal)]))

theorem apiKpi_foldl_allFlows :
    ∀ (accounts : List AccountData) (st : KpiState),
      (accounts.foldl apiKpiStep st).allFlows =
        st.allFlows ++ (accounts.map AccountData.flows).flatten := by
  intro accounts
  induction accounts with
  | nil => intro st; simp
  | cons a rest ih =>
    intro st
    rw [List.foldl_cons, ih]
    simp [apiKpiStep, List.append_assoc]

theorem apiKpi_foldl_totalTerminal :
    ∀ (accounts : List AccountData) (st : KpiState),
      (accounts.foldl apiKpiStep st).totalTerminal =
        st.totalTerminal + (accounts.map AccountData.valValue).sum := by
  intro accounts
  induction accounts with
  | nil => intro st; simp
  | cons a rest ih =>
    intro st
    rw [List.foldl_cons, ih]
    simp [apiKpiStep]
    ring

theorem apiKpi_foldl_accountXirrs :
    ∀ (accounts : List AccountData) (st : KpiState),
      (accounts.foldl apiKpiStep st).accountXirrs =
        st.accountXirrs ++
          accounts.map (fun a => xirr (a.flows ++ [(a.valDate, a.valValue)])) := by
  intro accounts
  induction accounts with
  | nil => intro st; simp
  | cons a rest ih =>
    intro st
    rw [List.foldl_cons, ih]
    simp [apiKpiStep]

theorem apiKpi_foldl_maxDate :
    ∀ (accounts : List AccountData) (st : KpiState) (m : ℤ),
      st.maxDate = some m →
      (accounts.foldl apiKpiStep st).maxDate =
        some ((accounts.map AccountData.valDate).foldl max m) := by
  intro accounts
  induction accounts with
  | nil => intro st m h; simpa using h
  | cons a rest ih =>
    intro st m h
    rw [List.foldl_cons, List.map_cons, List.foldl_cons]
    apply ih
    show (apiKpiStep st a).maxDate = some (max m a.valDate)
    rcases lt_or_le m a.valDate with hlt | hle
    · simp [apiKpiStep, h, if_pos hlt, max_eq_right hlt.le]
    · simp [apiKpiStep, h, if_neg (not_lt.mpr hle), max_eq_left hle]

theorem le_foldl_max (l : List ℤ) : ∀ m : ℤ, m ≤ l.foldl max m := by
  induction l with
  | nil => intro m; simp
  | cons x xs ih =>
    intro m
    exact le_trans (le_max_left m x) (ih (max m x))

theorem mem_le_foldl_max (l : List ℤ) :
    ∀ m : ℤ, ∀ x ∈ l, x ≤ l.foldl max m := by
  induction l with
  | nil => intro m x hx; simp at hx
  | cons y ys ih =>
    intro m x hx
    rcases List.mem_cons.mp hx with h | h
    · subst h
      exact le_trans (le_max_right m x) (le_foldl_max ys (max m x))
    · exact ih (max m y) x h

theorem foldl_max_mem (l : List ℤ) :
    ∀ m : ℤ, l.foldl max m = m ∨ l.foldl max m ∈ l := by
  induction l with
  | nil => intro m; simp
  | cons y ys ih =>
    intro m
    rw [List.foldl_cons]
    rcases ih (max m y) with h | h
    · rcases max_cases m y with ⟨hm, _⟩ | ⟨hm, _⟩
      · left; rw [h, hm]
      · right; rw [h, hm]; exact List.mem_cons_self _ _
    · right; exact List.mem_cons_of_mem _ h

/-! C6: the consolidation aggregator. -/

/-- C6: `api_kpi` computes, for each account in order, the XIRR of that
account's flows with its own terminal `(date, value)` appended; and the
consolidated IRR (for a non-empty account set) is the XIRR of exactly
the concatenation of all accounts' pre-terminal flows plus the single
synthetic terminal flow `(maxVdate, sum of terminal values)`, where
`maxVdate` is the maximum latest-valuation date across accounts. -/
theorem api_kpi_c6 (accounts : List AccountData) :
    (api_kpi accounts).1 =
      accounts.map (fun a => xirr (a.flows ++ [(a.valDate, a.valValue)])) ∧
    (accounts = [] → (api_kpi accounts).2 = none) ∧
    (accounts ≠ [] → ∃ maxVdate : ℤ,
      maxVdate ∈ accounts.map AccountData.valDate ∧
      (∀ d ∈ accounts.map AccountData.valDate, d ≤ maxVdate) ∧
      (api_kpi accounts).2 =
        xirr ((accounts.map AccountData.flows).flatten ++
          [(maxVdate, (accounts.map AccountData.valValue).sum)])) := by
  have hacc : (accounts.foldl apiKpiStep ⟨[], 0, none, []⟩).accountXirrs =
      accounts.map (fun a => xirr (a.flows ++ [(a.valDate, a.valValue)])) := by
    simpa using apiKpi_foldl_accountXirrs accounts ⟨[], 0, none, []⟩
  refine ⟨?_, ?_, ?_⟩
  · simp only [api_kpi]
    cases h : (accounts.foldl apiKpiStep ⟨[], 0, none, []⟩).maxDate <;>
      simp [h, hacc]
  · intro h
    subst h
    simp [api_kpi]
  · intro h
    match accounts, h with
    | a :: rest, _ =>
      have hstep : (apiKpiStep ⟨[], 0, none, []⟩ a).maxDate = some a.valDate := rfl
      have hmax : ((a :: rest).foldl apiKpiStep ⟨[], 0, none, []⟩).maxDate =
          some ((rest.map AccountData.valDate).foldl max a.valDate) := by
        rw [List.foldl_cons]
        exact apiKpi_foldl_maxDate rest _ a.valDate hstep
      refine ⟨(rest.map AccountData.valDate).foldl max a.valDate, ?_, ?_, ?_⟩
      · rw [List.map_cons]
        rcases foldl_max_mem (rest.map AccountData.valDate) a.valDate with h' | h'
        · rw [h']; exact List.mem_cons_self _ _
        · exact List.mem_cons_of_mem _ h'
      · intro d hd
        rw [List.map_cons] at hd
        rcases List.mem_cons.mp hd with h' | h'
        · subst h'
          exact le_foldl_max _ _
        · exact mem_le_foldl_max _ _ d h'
      · have hflows := apiKpi_foldl_allFlows (a :: rest) ⟨[], 0, none, []⟩
        have htot := apiKpi_foldl_totalTerminal (a :: rest) ⟨[], 0, none, []⟩
        simp only [api_kpi]
        rw [hmax]
        simp only []
        rw [hflows, htot]
        simp

/-- Witness for C6: the spec's two-account scenario (account A with a
contribution of 5000 on 2022-01-01 valued 5500 on 2023-01-01, account B
with a contribution of 2000 on 2022-06-01 valued 2100 on the same day),
using proleptic-Gregorian ordinals for the dates. -/
theorem api_kpi_c6_witness :
    (api_kpi [⟨[(738156, -5000)], 738521, 5500⟩,
              ⟨[(738307, -2000)], 738521, 2100⟩]).1 =
      [xirr [((738156 : ℤ), (-5000 : ℝ)), (738521, 5500)],
       xirr [((738307 : ℤ), (-2000 : ℝ)), (738521, 2100)]] ∧
    (∃ maxVdate : ℤ,
      maxVdate ∈ [⟨[(738156, -5000)], 738521, 5500⟩,
                  (⟨[(738307, -2000)], 738521, 2100⟩ : AccountData)].map
                    AccountData.valDate ∧
      (∀ d ∈ [⟨[(738156, -5000)], 738521, 5500⟩,
              (⟨[(738307, -2000)], 738521, 2100⟩ : AccountData)].map
                AccountData.valDate, d ≤ maxVdate) ∧
      (api_kpi [⟨[(738156, -5000)], 738521, 5500⟩,
                ⟨[(738307, -2000)], 738521, 2100⟩]).2 =
        xirr (([⟨[(738156, -5000)], 738521, 5500⟩,
                (⟨[(738307, -2000)], 738521, 2100⟩ : AccountData)].map
                  AccountData.flows).flatten ++
          [(maxVdate,
            ([⟨[(738156, -5000)], 738521, 5500⟩,
              (⟨[(738307, -2000)], 738521, 2100⟩ : AccountData)].map
                AccountData.valValue).sum)])) := by
  constructor
  · have h := (api_kpi_c6 [⟨[(738156, -5000)], 738521, 5500⟩,
      ⟨[(738307, -2000)], 738521, 2100⟩]).1
    simpa using h
  · exact (api_kpi_c6 _).2.2 (by simp)

/-! C7: consolidating two identical accounts. -/

/-- Helper: reading the per-account component of `api_kpi`. -/
theorem api_kpi_fst (accounts : List AccountData) :
    (api_kpi accounts).1 =
      (accounts.foldl apiKpiStep ⟨[], 0, none, []⟩).accountXirrs := by
  simp only [api_kpi]
  cases h : (accounts.foldl apiKpiStep ⟨[], 0, none, []⟩).maxDate <;> simp [h]

/-- Helper: reading the consolidated component of `api_kpi` once the
final `max_date` is known. -/
theorem api_kpi_snd_some (accounts : List AccountData) (m : ℤ)
    (hm : (accounts.foldl apiKpiStep ⟨[], 0, none, []⟩).maxDate = some m) :
    (api_kpi accounts).2 =
      xirr ((accounts.foldl apiKpiStep ⟨[], 0, none, []⟩).allFlows ++
        [(m, (accounts.foldl apiKpiStep ⟨[], 0, none, []⟩).totalTerminal)]) := by
  simp only [api_kpi, hm]

/-- Helper for C7: the consolidated series built by `api_kpi` for two
identical accounts is the duplicated flow list with one terminal flow
carrying the doubled terminal value. -/
theorem api_kpi_pair_self (a : AccountData) :
    (api_kpi [a, a]).2 =
      xirr (a.flows ++ a.flows ++ [(a.valDate, a.valValue + a.valValue)]) := by
  have hstep : (apiKpiStep ⟨[], 0, none, []⟩ a).maxDate = some a.valDate := rfl
  have hmax : ([a, a].foldl apiKpiStep ⟨[], 0, none, []⟩).maxDate =
      some a.valDate := by
    rw [List.foldl_cons, apiKpi_foldl_maxDate [a] _ a.valDate hstep]
    simp
  rw [api_kpi_snd_some [a, a] a.valDate hmax,
    apiKpi_foldl_allFlows [a, a] ⟨[], 0, none, []⟩,
    apiKpi_foldl_totalTerminal [a, a] ⟨[], 0, none, []⟩]
  simp [List.append_assoc]

/-- C7 counterexample: two identical accounts, each with no external
flows and a latest valuation of `6e-13` (below the `1e-12`
degenerate-amount threshold) on date `737425`.  Each per-account series
`[(737425, 6e-13)]` is degenerate, so both per-account XIRRs are
`none`; but the consolidated series carries the doubled terminal amount
`1.2e-12`, escapes the degeneracy guard, and Newton converges at once
(`|NPV| < 1e-8` at the initial guess), so the consolidated IRR is
`some 0.1` — not the common per-account value `none`. -/
theorem consolidation_c7_counterexample :
    (api_kpi [⟨[], 737425, 6e-13⟩, ⟨[], 737425, 6e-13⟩]).1 = [none, none] ∧
    (api_kpi [⟨[], 737425, 6e-13⟩, ⟨[], 737425, 6e-13⟩]).2 = some 0.1 ∧
    (api_kpi [⟨[], 737425, 6e-13⟩, ⟨[], 737425, 6e-13⟩]).2 ≠
      xirr (([] : List (ℤ × ℝ)) ++ [((737425 : ℤ), (6e-13 : ℝ))]) := by
  have habs : |(6e-13 : ℝ)| = 6e-13 := abs_of_nonneg (by norm_num)
  have habs2 : |(6e-13 : ℝ) + 6e-13| = 6e-13 + 6e-13 := abs_of_nonneg (by norm_num)
  have hper : xirr [((737425 : ℤ), (6e-13 : ℝ))] = none := by
    unfold xirr
    rw [if_pos]
    right
    intro p hp
    rw [List.mem_singleton] at hp
    subst hp
    rw [habs]
    norm_num
  have hacc : (api_kpi [(⟨[], 737425, 6e-13⟩ : AccountData),
      ⟨[], 737425, 6e-13⟩]).1 = [none, none] := by
    rw [api_kpi_fst, apiKpi_foldl_accountXirrs]
    simp only [List.map_cons, List.map_nil, List.nil_append]
    rw [hper]
  have hnondeg : ¬([((737425 : ℤ), (6e-13 : ℝ) + 6e-13)] = [] ∨
      ∀ p ∈ [((737425 : ℤ), (6e-13 : ℝ) + 6e-13)], |p.2| < 1e-12) := by
    rintro (h | h)
    · exact List.cons_ne_nil _ _ h
    · have := h ((737425 : ℤ), (6e-13 : ℝ) + 6e-13) (List.mem_singleton.mpr rfl)
      rw [habs2] at this
      norm_num at this
  have hnewton : ∀ n : ℕ,
      (newtonAux [((737425 : ℤ), (6e-13 : ℝ) + 6e-13)] (n + 1) 0.1).1 = some 0.1 := by
    intro n
    simp only [newtonAux]
    rw [if_pos]
    rw [xnpv_single, habs2]
    norm_num
  have hcons : (api_kpi [(⟨[], 737425, 6e-13⟩ : AccountData),
      ⟨[], 737425, 6e-13⟩]).2 = some 0.1 := by
    rw [api_kpi_pair_self]
    simp only [List.nil_append]
    unfold xirr
    rw [if_neg hnondeg, hnewton 49]
  refine ⟨hacc, hcons, ?_⟩
  rw [hcons, List.nil_append, hper]
  simp

/-- C7 amended: for two accounts with identical flow lists and
identical latest valuations, the consolidated series built by `api_kpi`
has, at every rate, a net present value exactly twice the common
per-account series' NPV — the two root-finding problems therefore have
the same roots — but the discrete `xirr` outputs may still differ at
tolerance boundaries (see the counterexample). -/
theorem consolidation_c7_amended (a : AccountData) (r : ℝ) :
    (api_kpi [a, a]).2 =
      xirr (a.flows ++ a.flows ++ [(a.valDate, a.valValue + a.valValue)]) ∧
    xnpv r (a.flows ++ a.flows ++ [(a.valDate, a.valValue + a.valValue)]) =
      2 * xnpv r (a.flows ++ [(a.valDate, a.valValue)]) := by
  refine ⟨api_kpi_pair_self a, ?_⟩
  have h1 : (a.flows ++ a.flows ++ [(a.valDate, a.valValue + a.valValue)]) ≠ [] := by
    simp
  have h2 : (a.flows ++ [(a.valDate, a.valValue)]) ≠ [] := by
    simp
  have hmin : minDate (a.flows ++ a.flows ++ [(a.valDate, a.valValue + a.valValue)]) =
      minDate (a.flows ++ [(a.valDate, a.valValue)]) := by
    apply minDate_congr h1 h2
    · intro q hq
      rcases List.mem_append.mp hq with hq' | hq'
      · rcases List.mem_append.mp hq' with hq'' | hq''
        · exact ⟨q, List.mem_append_left _ hq'', rfl⟩
        · exact ⟨q, List.mem_append_left _ hq'', rfl⟩
      · rw [List.mem_singleton.mp hq']
        exact ⟨(a.valDate, a.valValue),
          List.mem_append_right _ (List.mem_singleton.mpr rfl), rfl⟩
    · intro q hq
      rcases List.mem_append.mp hq with hq' | hq'
      · exact ⟨q, List.mem_append_left _ (List.mem_append_left _ hq'), rfl⟩
      · rw [List.mem_singleton.mp hq']
        exact ⟨(a.valDate, a.valValue + a.valValue),
          List.mem_append_right _ (List.mem_singleton.mpr rfl), rfl⟩
  rw [xnpv_ne_nil r h1, xnpv_ne_nil r h2, hmin]
  simp only [List.map_append, List.sum_append, List.map_cons, List.map_nil,
    List.sum_cons, List.sum_nil]
  rw [add_div]
  ring

/-! Exception-aware twin embedding for C2.  Python float division
raises `ZeroDivisionError` on a zero denominator; `x ** y` returns a
complex number for `x < 0` and non-integral `y`, which poisons the
later `r <= -0.9999` comparison in `xirr` with a `TypeError` — both are
modelled as `Except.error`. -/

/-- Python float division `num / den`: error on a zero denominator. -/
def pyDiv (num den : ℝ) : Except Unit ℝ :=
  if den = 0 then Except.error () else Except.ok (num / den)

/-- Python `x ** y` on floats as used in `xnpv`: `x ** 0.0 = 1.0` for
every `x`; a positive (or zero) base gives the real power; a negative
base (non-zero exponent) is modelled as an error, standing for the
complex result that would make `xirr` raise a `TypeError` downstream. -/
def pyPow (x y : ℝ) : Except Unit ℝ :=
  if y = 0 then Except.ok 1
  else if x < 0 then Except.error ()
  else Except.ok (x ^ y)

/-- The term-by-term evaluation of the sum in `xnpv`, with Python's
error behaviour. -/
def xnpvTermsE (rate : ℝ) (t0 : ℤ) : List (ℤ × ℝ) → Except Unit ℝ
  | [] => Except.ok 0
  | p :: rest =>
    match pyPow (1 + rate) (yearfrac t0 p.1) with
    | Except.error e => Except.error e
    | Except.ok den =>
      match pyDiv p.2 den with
      | Except.error e => Except.error e
      | Except.ok t =>
        match xnpvTermsE rate t0 rest with
        | Except.error e => Except.error e
        | Except.ok s => Except.ok (t + s)

/-- `xnpv` with Python's error behaviour. -/
def xnpvE (rate : ℝ) (cashflows : List (ℤ × ℝ)) : Except Unit ℝ :=
  if cashflows = [] then Except.ok 0
  else xnpvTermsE rate (minDate cashflows) cashflows

/-- The Newton loop of `xirr` with Python's error behaviour (the
`f / df` update is a genuine division, modelled through `pyDiv`). -/
def newtonAuxE (cfs : List (ℤ × ℝ)) : ℕ → ℝ → Except Unit (Option ℝ)
  | 0, _ => Except.ok none
  | fuel + 1, r =>
    match xnpvE r cfs with
    | Except.error e => Except.error e
    | Except.ok f =>
      if |f| < 1e-8 then Except.ok (some r)
      else
        match xnpvE (r + 1e-6) cfs with
        | Except.error e => Except.error e
        | Except.ok f2 =>
          let df := (f2 - f) / 1e-6
          if |df| < 1e-12 then Except.ok none
          else
            match pyDiv f df with
            | Except.error e => Except.error e
            | Except.ok q => newtonAuxE cfs fuel (clampNewton (r - q))

/-- The bisection loop of `xirr` with Python's error behaviour. -/
def bisectAuxE (cfs : List (ℤ × ℝ)) : ℕ → ℝ → ℝ → ℝ → ℝ → Except Unit ℝ
  | 0, lo, hi, _, _ => Except.ok ((lo + hi) / 2)
  | fuel + 1, lo, hi, flo, fhi =>
    let mid := (lo + hi) / 2
    match xnpvE mid cfs with
    | Except.error e => Except.error e
    | Except.ok fm =>
      if |fm| < 1e-8 then Except.ok mid
      else if flo * fm ≤ 0 then bisectAuxE cfs fuel lo mid flo fm
      else bisectAuxE cfs fuel mid hi fm fhi

/-- `xirr` with Python's error behaviour. -/
def xirrE (cfs : List (ℤ × ℝ)) (guess : ℝ := 0.1) : Except Unit (Option ℝ) :=
  if cfs = [] ∨ ∀ p ∈ cfs, |p.2| < 1e-12 then Except.ok none
  else
    match newtonAuxE cfs 50 guess with
    | Except.error e => Except.error e
    | Except.ok (some r) => Except.ok (some r)
    | Except.ok none =>
      let lo : ℝ := -0.9999
      let hi : ℝ := 10.0
      match xnpvE lo cfs with
      | Except.error e => Except.error e
      | Except.ok flo =>
        match xnpvE hi cfs with
        | Except.error e => Except.error e
        | Except.ok fhi =>
          if flo * fhi > 0 then Except.ok none
          else
            match bisectAuxE cfs 200 lo hi flo fhi with
            | Except.error e => Except.error e
            | Except.ok b => Except.ok (some b)

/-- The walk of `time_weighted_return` with Python's error behaviour
(the only division, `(v1 - f) / v0`, is guarded by the `v0 == 0`
check). -/
def twrWalkE (flows : List (ℤ × ℝ)) :
    ℝ → (ℤ × ℝ) → List (ℤ × ℝ) → Except Unit (Option ℝ)
  | acc, _, [] => Except.ok (some (acc - 1))
  | acc, v0, v1 :: rest =>
    let f := subSum flows v0.1 v1.1
    if v0.2 = 0 then Except.ok none
    else
      match pyDiv (v1.2 - f) v0.2 with
      | Except.error e => Except.error e
      | Except.ok g => twrWalkE flows (acc * g) v1 rest

/-- `time_weighted_return` with Python's error behaviour. -/
def twrE (points flows : List (ℤ × ℝ)) : Except Unit (Option ℝ) :=
  if points.length < 2 then Except.ok none
  else
    match sortByDate points with
    | [] => Except.ok none
    | p0 :: rest => twrWalkE (sortByDate flows) 1 p0 rest

/-! Linking the exception-aware embedding with the pure one on the
error-free domain. -/

theorem pyPow_pos {x : ℝ} (hx : 0 < x) (y : ℝ) :
    pyPow x y = Except.ok (x ^ y) := by
  unfold pyPow
  by_cases hy : y = 0
  · rw [if_pos hy, hy, Real.rpow_zero]
  · rw [if_neg hy, if_neg (not_lt.mpr hx.le)]

theorem xnpvTermsE_ok (rate : ℝ) (t0 : ℤ) (hr : 0 < 1 + rate) :
    ∀ l : List (ℤ × ℝ),
      xnpvTermsE rate t0 l =
        Except.ok ((l.map (fun p => p.2 / (1 + rate) ^ yearfrac t0 p.1)).sum) := by
  intro l
  induction l with
  | nil => simp [xnpvTermsE]
  | cons p rest ih =>
    have hden : (1 + rate) ^ yearfrac t0 p.1 ≠ 0 :=
      ne_of_gt (Real.rpow_pos_of_pos hr _)
    rw [xnpvTermsE, pyPow_pos hr]
    simp only []
    rw [pyDiv, if_neg hden]
    simp only []
    rw [ih]
    simp

theorem xnpvE_ok (rate : ℝ) (hr : -1 < rate) (cfs : List (ℤ × ℝ)) :
    xnpvE rate cfs = Except.ok (xnpv rate cfs) := by
  by_cases h : cfs = []
  · subst h
    simp [xnpvE, xnpv]
  · rw [xnpvE, if_neg h, xnpvTermsE_ok rate (minDate cfs) (by linarith),
      xnpv_ne_nil rate h]

theorem newtonAuxE_ok (cfs : List (ℤ × ℝ)) :
    ∀ (fuel : ℕ) (r : ℝ), -1 < r →
      newtonAuxE cfs fuel r = Except.ok ((newtonAux cfs fuel r).1) := by
  intro fuel
  induction fuel with
  | zero => intro r hr; rw [newtonAuxE, newtonAux]
  | succ n ih =>
    intro r hr
    rw [newtonAuxE, xnpvE_ok r hr]
    simp only [newtonAux]
    by_cases h1 : |xnpv r cfs| < 1e-8
    · rw [if_pos h1, if_pos h1]
    · rw [if_neg h1, if_neg h1, xnpvE_ok (r + 1e-6) (by linarith)]
      simp only []
      by_cases h2 : |(xnpv (r + 1e-6) cfs - xnpv r cfs) / 1e-6| < 1e-12
      · rw [if_pos h2, if_pos h2]
      · rw [if_neg h2, if_neg h2]
        have hdf : (xnpv (r + 1e-6) cfs - xnpv r cfs) / 1e-6 ≠ 0 := by
          intro h0
          rw [h0] at h2
          simp at h2
          norm_num at h2
        rw [pyDiv, if_neg hdf]
        simp only []
        exact ih (clampNewton _) (by
          linarith [clampNewton_gt (r - xnpv r cfs /
            ((xnpv (r + 1e-6) cfs - xnpv r cfs) / 1e-6))])

theorem bisectAuxE_ok (cfs : List (ℤ × ℝ)) :
    ∀ (fuel : ℕ) (lo hi flo fhi : ℝ), -1 < lo → -1 < hi →
      bisectAuxE cfs fuel lo hi flo fhi =
        Except.ok (bisectAux cfs fuel lo hi flo fhi) := by
  intro fuel
  induction fuel with
  | zero => intro lo hi flo fhi hlo hhi; rw [bisectAuxE, bisectAux]
  | succ n ih =>
    intro lo hi flo fhi hlo hhi
    have hmid : -1 < (lo + hi) / 2 := by linarith
    rw [bisectAuxE, xnpvE_ok _ hmid]
    simp only [bisectAux]
    by_cases h1 : |xnpv ((lo + hi) / 2) cfs| < 1e-8
    · rw [if_pos h1, if_pos h1]
    · rw [if_neg h1, if_neg h1]
      by_cases h2 : flo * xnpv ((lo + hi) / 2) cfs ≤ 0
      · rw [if_pos h2, if_pos h2]
        exact ih lo ((lo + hi) / 2) flo _ hlo hmid
      · rw [if_neg h2, if_neg h2]
        exact ih ((lo + hi) / 2) hi _ fhi hmid hhi

theorem twrWalkE_ok (flows : List (ℤ × ℝ)) :
    ∀ (rest : List (ℤ × ℝ)) (acc : ℝ) (v0 : ℤ × ℝ),
      twrWalkE flows acc v0 rest = Except.ok (twrWalk flows acc v0 rest) := by
  intro rest
  induction rest with
  | nil => intro acc v0; rw [twrWalkE, twrWalk]
  | cons v1 rest ih =>
    intro acc v0
    simp only [twrWalkE, twrWalk]
    by_cases h0 : v0.2 = 0
    · rw [if_pos h0, if_pos h0]
    · rw [if_neg h0, if_neg h0, pyDiv, if_neg h0]
      simp only []
      exact ih _ v1

theorem twrE_ok (points flows : List (ℤ × ℝ)) :
    twrE points flows = Except.ok (time_weighted_return points flows) := by
  rw [twrE, time_weighted_return]
  by_cases hl : points.length < 2
  · rw [if_pos hl, if_pos hl]
  · rw [if_neg hl, if_neg hl]
    cases hsp : sortByDate points with
    | nil => rfl
    | cons p0 rest => exact twrWalkE_ok _ rest 1 p0

/-! C2: the Return Engine and exceptions. -/

/-- C2 counterexample: with the initial guess `-1.0` the discount base
`1 + rate` is `0`, so the very first Newton NPV evaluation of
`xirr [(2020-01-01, -1000), (2021-01-01, 1100)]` performs
`1100 / 0.0 ** (366/365.2425)` = `1100 / 0.0` and raises
`ZeroDivisionError`: `xirr` does not return `null` for every guess. -/
theorem xirr_raises_c2_counterexample :
    xirrE [((737425 : ℤ), (-1000 : ℝ)), (737791, 1100)] (-1) =
      Except.error () := by
  have hcfs : [((737425 : ℤ), (-1000 : ℝ)), (737791, 1100)] ≠ [] := by simp
  have hmin : minDate [((737425 : ℤ), (-1000 : ℝ)), (737791, 1100)] = 737425 := by
    rw [minDate_pair]
    norm_num
  have hyf : yearfrac 737425 737791 ≠ 0 := by
    unfold yearfrac
    norm_num
  have hx : xnpvE (-1) [((737425 : ℤ), (-1000 : ℝ)), (737791, 1100)] =
      Except.error () := by
    rw [xnpvE, if_neg hcfs, hmin]
    rw [xnpvTermsE]
    have h1 : pyPow (1 + (-1)) (yearfrac 737425 737425) = Except.ok 1 := by
      rw [yearfrac_self, pyPow, if_pos rfl]
    rw [h1]
    simp only []
    rw [pyDiv, if_neg (by norm_num : (1 : ℝ) ≠ 0)]
    simp only []
    rw [xnpvTermsE]
    have h2 : pyPow (1 + (-1)) (yearfrac 737425 737791) = Except.ok 0 := by
      rw [pyPow, if_neg hyf, if_neg (by norm_num)]
      norm_num [Real.zero_rpow hyf]
    rw [h2]
    simp only []
    rw [pyDiv, if_pos rfl]
  have hdeg : ¬([((737425 : ℤ), (-1000 : ℝ)), (737791, 1100)] = [] ∨
      ∀ p ∈ [((737425 : ℤ), (-1000 : ℝ)), (737791, 1100)], |p.2| < 1e-12) := by
    rintro (h | h)
    · exact hcfs h
    · have := h ((737425 : ℤ), (-1000 : ℝ)) (List.mem_cons_self _ _)
      rw [abs_of_nonpos (by norm_num)] at this
      norm_num at this
  have hnewton : newtonAuxE [((737425 : ℤ), (-1000 : ℝ)), (737791, 1100)]
      (49 + 1) (-1) = Except.error () := by
    rw [newtonAuxE, hx]
  rw [xirrE, if_neg hdeg]
  rw [show (50 : ℕ) = 49 + 1 from rfl, hnewton]

/-- C2 (amended): for every cash-flow list and every initial guess
strictly above `-1` (so the discount base stays positive), the
exception-aware model of `xirr` returns `ok` — no Python exception is
reachable — and agrees with the pure real-valued model; likewise
`time_weighted_return` never raises for any input (its only division is
guarded by the `v0 == 0` check).  Being real-valued, a non-`none`
result is a finite rate. -/
theorem return_engine_no_raise_c2 (cfs : List (ℤ × ℝ)) (guess : ℝ)
    (hg : -1 < guess) :
    xirrE cfs guess = Except.ok (xirr cfs guess) ∧
    (∀ points flows : List (ℤ × ℝ),
      twrE points flows = Except.ok (time_weighted_return points flows)) := by
  refine ⟨?_, fun points flows => twrE_ok points flows⟩
  rw [xirrE, xirr]
  by_cases hdeg : cfs = [] ∨ ∀ p ∈ cfs, |p.2| < 1e-12
  · rw [if_pos hdeg, if_pos hdeg]
  · rw [if_neg hdeg, if_neg hdeg, newtonAuxE_ok cfs 50 guess hg]
    cases hN : (newtonAux cfs 50 guess).1 with
    | some r => rfl
    | none =>
      simp only []
      rw [xnpvE_ok (-0.9999) (by norm_num), xnpvE_ok 10.0 (by norm_num)]
      simp only []
      by_cases hbr : xnpv (-0.9999) cfs * xnpv 10.0 cfs > 0
      · rw [if_pos hbr, if_pos hbr]
      · rw [if_neg hbr, if_neg hbr,
          bisectAuxE_ok cfs 200 (-0.9999) 10.0 _ _ (by norm_num) (by norm_num)]

/-- Witness for C2 (amended): the known two-flow series with the
default guess `0.1`, and a degenerate TWR input. -/
theorem return_engine_no_raise_c2_witness :
    xirrE [((737425 : ℤ), (-1000 : ℝ)), (737791, 1100)] 0.1 =
      Except.ok (xirr [((737425 : ℤ), (-1000 : ℝ)), (737791, 1100)] 0.1) ∧
    twrE [] [] = Except.ok (time_weighted_return [] []) :=
  ⟨(return_engine_no_raise_c2 [((737425 : ℤ), (-1000 : ℝ)), (737791, 1100)]
      0.1 (by norm_num)).1,
    (return_engine_no_raise_c2 [] 0.1 (by norm_num)).2 [] []⟩

/-! C5: the known-rate round trip
`xirr [(2020-01-01, -1000), (2021-01-01, 1100)] ≈ 0.10`.
2020-01-01 has ordinal 737425 and 2021-01-01 ordinal 737791 (2020 is a
leap year, so the gap is 366 days and the year fraction is
`366 / 365.2425 ≈ 1.00207`). -/

/-- The two-flow series of testable property P2. -/
def cfs5 : List (ℤ × ℝ) := [(737425, -1000), (737791, 1100)]

theorem xnpv_cfs5 (r : ℝ) :
    xnpv r cfs5 = -1000 + 1100 / (1 + r) ^ yearfrac 737425 737791 := by
  show xnpv r [(737425, -1000), (737791, 1100)] = _
  rw [xnpv_pair]
  have hmin : min (737425 : ℤ) 737791 = 737425 := by norm_num
  rw [hmin, yearfrac_self, Real.rpow_zero]
  norm_num

theorem yf5_pos : 0 < yearfrac 737425 737791 := by
  unfold yearfrac
  norm_num

theorem yf5_ge_one : 1 ≤ yearfrac 737425 737791 := by
  unfold yearfrac
  rw [le_div_iff (by norm_num)]
  norm_num

theorem yf5_sub_one_bounds :
    0.002 ≤ yearfrac 737425 737791 - 1 ∧
      yearfrac 737425 737791 - 1 ≤ 0.0021 := by
  unfold yearfrac
  norm_num

theorem rpow_split_yf5 {b : ℝ} (hb : 0 < b) :
    b ^ yearfrac 737425 737791 =
      b * b ^ (yearfrac 737425 737791 - 1) := by
  have h : 1 + (yearfrac 737425 737791 - 1) = yearfrac 737425 737791 := by ring
  conv_lhs => rw [← h]
  rw [Real.rpow_add hb, Real.rpow_one]

theorem exp_le_inv_one_sub {x : ℝ} (h1 : x < 1) :
    Real.exp x ≤ (1 - x)⁻¹ := by
  have h2 : 1 - x ≤ Real.exp (-x) := by
    have := Real.add_one_le_exp (-x)
    linarith
  have h3 : (0 : ℝ) < 1 - x := by linarith
  have h4 : Real.exp x = (Real.exp (-x))⁻¹ := by
    rw [Real.exp_neg, inv_inv]
  rw [h4]
  exact inv_le_inv_of_le h3 h2

theorem log_ge_one_sub_inv {x : ℝ} (hx : 0 < x) : 1 - x⁻¹ ≤ Real.log x := by
  have h := Real.log_le_sub_one_of_pos (inv_pos.mpr hx)
  rw [Real.log_inv] at h
  linarith

theorem npv5_antitone {r s : ℝ} (hr : -1 < r) (hrs : r < s) :
    xnpv s cfs5 < xnpv r cfs5 := by
  rw [xnpv_cfs5, xnpv_cfs5]
  have hr' : (0 : ℝ) < 1 + r := by linarith
  have hs' : (0 : ℝ) < 1 + s := by linarith
  have h1 : (1 + r) ^ yearfrac 737425 737791 <
      (1 + s) ^ yearfrac 737425 737791 :=
    Real.rpow_lt_rpow hr'.le (by linarith) yf5_pos
  have h2 : 1100 / (1 + s) ^ yearfrac 737425 737791 <
      1100 / (1 + r) ^ yearfrac 737425 737791 :=
    (div_lt_div_left (by norm_num) (Real.rpow_pos_of_pos hs' _)
      (Real.rpow_pos_of_pos hr' _)).mpr h1
  linarith

theorem npv5_at_lo : (1e-8 : ℝ) ≤ xnpv (-0.9999) cfs5 := by
  rw [xnpv_cfs5]
  have h1 : ((1 : ℝ) + -0.9999) = 0.0001 := by norm_num
  rw [h1]
  have h2 : (0.0001 : ℝ) ^ yearfrac 737425 737791 ≤ (0.0001 : ℝ) ^ (1 : ℝ) :=
    Real.rpow_le_rpow_of_exponent_ge (by norm_num) (by norm_num) yf5_ge_one
  rw [Real.rpow_one] at h2
  have h3 : (0 : ℝ) < (0.0001 : ℝ) ^ yearfrac 737425 737791 :=
    Real.rpow_pos_of_pos (by norm_num) _
  have h4 : (1100 : ℝ) / 0.0001 ≤
      1100 / (0.0001 : ℝ) ^ yearfrac 737425 737791 :=
    (div_le_div_left (by norm_num) (by norm_num) h3).mpr h2
  have h5 : (1100 : ℝ) / 0.0001 = 11000000 := by norm_num
  linarith

theorem npv5_at_hi : xnpv 10.0 cfs5 ≤ -1e-8 := by
  rw [xnpv_cfs5]
  have h1 : ((1 : ℝ) + 10.0) = 11 := by norm_num
  rw [h1]
  have h2 : (11 : ℝ) ^ (1 : ℝ) ≤ (11 : ℝ) ^ yearfrac 737425 737791 :=
    Real.rpow_le_rpow_of_exponent_le (by norm_num) yf5_ge_one
  rw [Real.rpow_one] at h2
  have h4 : (1100 : ℝ) / (11 : ℝ) ^ yearfrac 737425 737791 ≤ 1100 / 11 :=
    (div_le_div_left (by norm_num) (by linarith) (by norm_num)).mpr h2
  have h5 : (1100 : ℝ) / 11 = 100 := by norm_num
  linarith

theorem npv5_at_0995 : (1e-8 : ℝ) < xnpv 0.0995 cfs5 := by
  rw [xnpv_cfs5]
  have h1 : ((1 : ℝ) + 0.0995) = 1.0995 := by norm_num
  rw [h1]
  have hbpos : (0 : ℝ) < 1.0995 := by norm_num
  have hsplit := rpow_split_yf5 hbpos
  have hlog : Real.log 1.0995 ≤ 0.0995 := by
    have := Real.log_le_sub_one_of_pos hbpos
    linarith
  have hlog0 : (0 : ℝ) ≤ Real.log 1.0995 := Real.log_nonneg (by norm_num)
  have he5 := yf5_sub_one_bounds
  have ht : Real.log 1.0995 * (yearfrac 737425 737791 - 1) ≤ 0.00021 := by
    have := mul_le_mul hlog he5.2 (by linarith) (by norm_num)
    linarith
  have hexp : (1.0995 : ℝ) ^ (yearfrac 737425 737791 - 1) ≤
      (1 - 0.00021 : ℝ)⁻¹ := by
    rw [Real.rpow_def_of_pos hbpos]
    calc Real.exp (Real.log 1.0995 * (yearfrac 737425 737791 - 1)) ≤
        Real.exp 0.00021 := Real.exp_le_exp.mpr ht
    _ ≤ (1 - 0.00021 : ℝ)⁻¹ := exp_le_inv_one_sub (by norm_num)
  have hpow : (1.0995 : ℝ) ^ yearfrac 737425 737791 < 1100 / (1000 + 1e-8) := by
    rw [hsplit]
    have h6 : (1.0995 : ℝ) * (1.0995 : ℝ) ^ (yearfrac 737425 737791 - 1) ≤
        1.0995 * (1 - 0.00021 : ℝ)⁻¹ :=
      mul_le_mul_of_nonneg_left hexp (by norm_num)
    have h7 : (1.0995 : ℝ) * (1 - 0.00021 : ℝ)⁻¹ < 1100 / (1000 + 1e-8) := by
      norm_num
    linarith
  have hppos : (0 : ℝ) < (1.0995 : ℝ) ^ yearfrac 737425 737791 :=
    Real.rpow_pos_of_pos hbpos _
  have hmain : 1000 + 1e-8 < 1100 / (1.0995 : ℝ) ^ yearfrac 737425 737791 := by
    rw [lt_div_iff hppos]
    have := (lt_div_iff (by norm_num : (0 : ℝ) < 1000 + 1e-8)).mp hpow
    nlinarith
  linarith

theorem npv5_at_1005 : xnpv 0.1005 cfs5 < -1e-8 := by
  rw [xnpv_cfs5]
  have h1 : ((1 : ℝ) + 0.1005) = 1.1005 := by norm_num
  rw [h1]
  have hbpos : (0 : ℝ) < 1.1005 := by norm_num
  have hsplit := rpow_split_yf5 hbpos
  have hlog : (0.0913 : ℝ) ≤ Real.log 1.1005 := by
    have h := log_ge_one_sub_inv hbpos
    have h2 : (1.1005 : ℝ)⁻¹ ≤ 0.9087 := by
      rw [inv_le (by norm_num) (by norm_num)]
      norm_num
    linarith
  have he5 := yf5_sub_one_bounds
  have ht : (0.00018 : ℝ) ≤ Real.log 1.1005 * (yearfrac 737425 737791 - 1) := by
    have := mul_le_mul hlog he5.1 (by norm_num) (by linarith)
    linarith
  have hexp : (1.00018 : ℝ) ≤ (1.1005 : ℝ) ^ (yearfrac 737425 737791 - 1) := by
    rw [Real.rpow_def_of_pos hbpos]
    have := Real.add_one_le_exp (Real.log 1.1005 * (yearfrac 737425 737791 - 1))
    linarith
  have hpow : 1100 / (1000 - 1e-8) < (1.1005 : ℝ) ^ yearfrac 737425 737791 := by
    rw [hsplit]
    have h6 : (1.1005 : ℝ) * 1.00018 ≤
        1.1005 * (1.1005 : ℝ) ^ (yearfrac 737425 737791 - 1) :=
      mul_le_mul_of_nonneg_left hexp (by norm_num)
    have h7 : (1100 : ℝ) / (1000 - 1e-8) < 1.1005 * 1.00018 := by
      rw [div_lt_iff (by norm_num)]
      norm_num
    linarith
  have hppos : (0 : ℝ) < (1.1005 : ℝ) ^ yearfrac 737425 737791 :=
    Real.rpow_pos_of_pos hbpos _
  have hmain : 1100 / (1.1005 : ℝ) ^ yearfrac 737425 737791 < 1000 - 1e-8 := by
    rw [div_lt_iff hppos]
    have := (div_lt_iff (by norm_num : (0 : ℝ) < 1000 - 1e-8)).mp hpow
    nlinarith
  linarith

/-- Localisation: any rate above `-1` whose NPV magnitude is below the
Newton/bisection tolerance lies within `(0.0995, 0.1005)`. -/
theorem npv5_localize {r : ℝ} (hr : -1 < r) (h : |xnpv r cfs5| < 1e-8) :
    0.0995 < r ∧ r < 0.1005 := by
  constructor
  · by_contra hc
    push_neg at hc
    have hge : xnpv 0.0995 cfs5 ≤ xnpv r cfs5 := by
      rcases eq_or_lt_of_le hc with he | hlt
      · rw [he]
      · exact (npv5_antitone hr hlt).le
    have h1 := npv5_at_0995
    have h2 := le_abs_self (xnpv r cfs5)
    have h3 := (abs_lt.mp h).2
    linarith
  · by_contra hc
    push_neg at hc
    have hle : xnpv r cfs5 ≤ xnpv 0.1005 cfs5 := by
      rcases eq_or_lt_of_le hc with he | hlt
      · rw [← he]
      · exact (npv5_antitone (by norm_num) hlt).le
    have h1 := npv5_at_1005
    have h3 := (abs_lt.mp h).1
    linarith

theorem lo_lt_1005 {lo : ℝ} (h : 1e-8 ≤ xnpv lo cfs5) : lo < 0.1005 := by
  by_contra hc
  push_neg at hc
  have hle : xnpv lo cfs5 ≤ xnpv 0.1005 cfs5 := by
    rcases eq_or_lt_of_le hc with he | hl
    · rw [← he]
    · exact (npv5_antitone (by norm_num) hl).le
  linarith [npv5_at_1005]

theorem hi_gt_0995 {hi : ℝ} (hhi : -1 < hi) (h : xnpv hi cfs5 ≤ -1e-8) :
    0.0995 < hi := by
  by_contra hc
  push_neg at hc
  have hge : xnpv 0.0995 cfs5 ≤ xnpv hi cfs5 := by
    rcases eq_or_lt_of_le hc with he | hl
    · rw [he]
    · exact (npv5_antitone hhi hl).le
  linarith [npv5_at_0995]

/-- The bisection loop on the series of P2, started on any bracket with
the sign-change invariant, lands within `(hi - lo) / 2 ^ fuel` of the
interval `(0.0995, 0.1005)` around the true root. -/
theorem bisect5 :
    ∀ (fuel : ℕ) (lo hi flo fhi : ℝ), -1 < lo → lo < hi →
      flo = xnpv lo cfs5 → fhi = xnpv hi cfs5 →
      1e-8 ≤ flo → fhi ≤ -1e-8 →
      0.0995 - (hi - lo) / 2 ^ fuel < bisectAux cfs5 fuel lo hi flo fhi ∧
        bisectAux cfs5 fuel lo hi flo fhi < 0.1005 + (hi - lo) / 2 ^ fuel := by
  intro fuel
  induction fuel with
  | zero =>
    intro lo hi flo fhi hlo hlt hflo hfhi hfl hfh
    rw [bisectAux]
    have h1 : lo < 0.1005 := lo_lt_1005 (hflo ▸ hfl)
    have h2 : 0.0995 < hi := hi_gt_0995 (lt_trans hlo hlt) (hfhi ▸ hfh)
    rw [pow_zero]
    constructor <;> [linarith; linarith]
  | succ n ih =>
    intro lo hi flo fhi hlo hlt hflo hfhi hfl hfh
    have hhi : -1 < hi := lt_trans hlo hlt
    have hmid : -1 < (lo + hi) / 2 := by linarith
    simp only [bisectAux]
    split_ifs with h1 h2
    · have hloc := npv5_localize hmid h1
      have hw : 0 < (hi - lo) / 2 ^ (n + 1) := div_pos (by linarith) (by positivity)
      exact ⟨by linarith [hloc.1], by linarith [hloc.2]⟩
    · have hfm_nonpos : xnpv ((lo + hi) / 2) cfs5 ≤ 0 := by
        by_contra hp
        push_neg at hp
        nlinarith
      have habs : 1e-8 ≤ |xnpv ((lo + hi) / 2) cfs5| := not_lt.mp h1
      rw [abs_of_nonpos hfm_nonpos] at habs
      have ih' := ih lo ((lo + hi) / 2) flo (xnpv ((lo + hi) / 2) cfs5) hlo
        (by linarith) hflo rfl hfl (by linarith)
      have heq : ((lo + hi) / 2 - lo) / 2 ^ n = (hi - lo) / 2 ^ (n + 1) := by
        rw [pow_succ]
        ring
      rw [heq] at ih'
      exact ih'
    · have hfm_pos : 0 < xnpv ((lo + hi) / 2) cfs5 := by
        by_contra hp
        push_neg at hp
        push_neg at h2
        nlinarith
      have habs : 1e-8 ≤ |xnpv ((lo + hi) / 2) cfs5| := not_lt.mp h1
      rw [abs_of_nonneg hfm_pos.le] at habs
      have ih' := ih ((lo + hi) / 2) hi (xnpv ((lo + hi) / 2) cfs5) fhi hmid
        (by linarith) rfl hfhi habs hfh
      have heq : (hi - (lo + hi) / 2) / 2 ^ n = (hi - lo) / 2 ^ (n + 1) := by
        rw [pow_succ]
        ring
      rw [heq] at ih'
      exact ih'

/-- C5: on the series `[(2020-01-01, -1000), (2021-01-01, 1100)]`
(ordinals 737425 and 737791) with the default guess `0.1`, `xirr`
returns a rate within `±0.001` of `0.10`: every Newton return value
satisfies `|NPV| < 1e-8` and hence lies in `(0.0995, 0.1005)` by strict
monotonicity of the NPV, and otherwise bisection runs on the bracket
`[-0.9999, 10.0]` (where the NPV changes sign) and lands within
`10.9999 / 2^200` of that interval. -/
theorem xirr_known_rate_c5 :
    ∃ r : ℝ, xirr [((737425 : ℤ), (-1000 : ℝ)), (737791, 1100)] 0.1 = some r ∧
      |r - 0.1| < 0.001 := by
  have main : ∃ r : ℝ, xirr cfs5 0.1 = some r ∧ |r - 0.1| < 0.001 := by
    have hdeg : ¬(cfs5 = [] ∨ ∀ p ∈ cfs5, |p.2| < 1e-12) := by
      rintro (h | h)
      · exact absurd h (by simp [cfs5])
      · have := h ((737425 : ℤ), (-1000 : ℝ)) (by simp [cfs5])
        rw [abs_of_nonpos (by norm_num)] at this
        norm_num at this
    unfold xirr
    rw [if_neg hdeg]
    cases hN : (newtonAux cfs5 50 0.1).1 with
    | some r =>
      refine ⟨r, rfl, ?_⟩
      obtain ⟨hr1, hr2⟩ := newtonAux_some_sound cfs5 50 0.1 r (by norm_num) hN
      obtain ⟨hl, hu⟩ := npv5_localize hr1 hr2
      rw [abs_lt]
      exact ⟨by linarith, by linarith⟩
    | none =>
      simp only []
      have hbr : ¬(xnpv (-0.9999) cfs5 * xnpv 10.0 cfs5 > 0) := by
        have h1 := npv5_at_lo
        have h2 := npv5_at_hi
        nlinarith
      rw [if_neg hbr]
      refine ⟨bisectAux cfs5 200 (-0.9999) 10.0 (xnpv (-0.9999) cfs5)
        (xnpv 10.0 cfs5), rfl, ?_⟩
      have hb := bisect5 200 (-0.9999) 10.0 (xnpv (-0.9999) cfs5)
        (xnpv 10.0 cfs5) (by norm_num) (by norm_num) rfl rfl npv5_at_lo npv5_at_hi
      have hw : ((10.0 : ℝ) - -0.9999) / 2 ^ 200 < 0.0001 := by
        rw [div_lt_iff (by positivity)]
        norm_num
      rw [abs_lt]
      exact ⟨by linarith [hb.1], by linarith [hb.2]⟩
  exact main

end

end PortfolioReport
